import Mathlib

/-!
Verification model of the symbolic-heap core of the liquid-rust /
flux refinement type checker: the paths tree (`paths_tree.rs`), the
substitution engine (`subst.rs`) and the invariant obligation builder
(`invariants.rs`).  Rust data is embedded shallowly: interned types become
inductive values, `FxHashMap`s become association lists, in-place mutation
becomes explicit state passing, and every process-fatal condition
(`unwrap`, `unreachable!`, `todo!`) becomes `Option.none`.
-/

namespace FluxModel

/-- Refinement expressions (`liquid_rust_middle::ty::Expr`).  `fvar` is a
free refinement variable, `pvar k` is the `k`-th declared refinement index
parameter of an ADT signature (the `usize` keys of `ParamInst`). -/
inductive Expr where
  | fvar (n : ℕ)
  | pvar (k : ℕ)
  | const (c : ℤ)
  | binop (op : ℕ) (e₁ e₂ : Expr)
  | unop (op : ℕ) (e : Expr)
deriving DecidableEq

/-- Reference mode (`RefKind`): shared or mutable. -/
inductive RefKind where
  | shr
  | mut
deriving DecidableEq

/-- Modelled from the spec: the `Ord` instance of `RefKind` is declared in
`liquid_rust_middle` (not under `src/`); per §3, when a traversal passes a
shared reference "the *weaker* of the current and new mode is retained
(shared dominates mutable)", so `min` returns `shr` whenever either
argument is `shr`. -/
def RefKind.min : RefKind → RefKind → RefKind
  | .shr, _ => .shr
  | .mut, m => m

/-- Root storage locations (`Loc`): a local slot or a free location. -/
inductive Loc where
  | local (n : ℕ)
  | free (n : ℕ)
deriving DecidableEq

/-- A dereference-free address: a location plus a list of field indices
(`Path`). -/
structure Path where
  loc : Loc
  projection : List ℕ
deriving DecidableEq

/-- Refinement predicates (`Pred`), carried by existential types. -/
inductive Pred where
  | expr (e : Expr)
  | kvar (k : ℕ) (args : List Expr)
deriving DecidableEq

mutual
/-- Refined types (`TyKind`): an indexed base type, an existential, a
strong pointer to a path, a reference, the uninitialized marker, or a type
parameter. -/
inductive Ty where
  | indexed (bty : BaseTy) (idxs : List Expr)
  | exist (bty : BaseTy) (p : Pred)
  | ptr (p : Path)
  | ref (rk : RefKind) (t : Ty)
  | uninit
  | param (n : ℕ)

/-- Base types (`BaseTy`): primitives or an ADT identified by its `DefId`
together with its generic substitutions. -/
inductive BaseTy where
  | int
  | bool
  | adt (defId : ℕ) (substs : TyList)

/-- A list of types, kept inside the mutual block so that the generic
substitutions of an ADT base type can be recursed into. -/
inductive TyList where
  | nil
  | cons (t : Ty) (ts : TyList)
end

deriving instance DecidableEq for Ty

/-- A declared variant signature: the field types, which may mention the
ADT's refinement index parameters as `Expr.pvar` occurrences. -/
structure Variant where
  fields : List Ty
deriving DecidableEq

/-- An ADT declaration (`AdtDef`): its `DefId`, the number of declared
refinement index sorts, and the variant signatures. -/
structure AdtDef where
  defId : ℕ
  nsorts : ℕ
  variants : List Variant
deriving DecidableEq

/-- The typed-IR environment: the interned table of ADT declarations,
looked up by `DefId`. -/
abbrev Genv := List AdtDef

def Genv.find? (g : Genv) (d : ℕ) : Option AdtDef :=
  List.find? (fun a => a.defId == d) g

/-- `ParamInst`: the map from declared index parameter number to the
inferred expression, built during fold's structural unification. -/
abbrev Params := List (ℕ × Expr)

def Params.insert (ps : Params) (k : ℕ) (e : Expr) : Params := (k, e) :: ps

def Params.lookup (ps : Params) (k : ℕ) : Option Expr :=
  match ps with
  | [] => none
  | (k', e) :: rest => if k' = k then some e else Params.lookup rest k

/-- Substitute the declared index parameters (`Expr.pvar`) of a signature
expression by concrete index expressions. -/
def substPE (σ : List Expr) : Expr → Expr
  | .pvar k => σ.getD k (.pvar k)
  | .fvar n => .fvar n
  | .const c => .const c
  | .binop op a b => .binop op (substPE σ a) (substPE σ b)
  | .unop op a => .unop op (substPE σ a)

def substPP (σ : List Expr) : Pred → Pred
  | .expr e => .expr (substPE σ e)
  | .kvar k args => .kvar k (args.map (substPE σ))

mutual
/-- Substitute the declared index parameters of a signature type. -/
def substPT (σ : List Expr) : Ty → Ty
  | .indexed b idxs => .indexed (substPB σ b) (idxs.map (substPE σ))
  | .exist b p => .exist (substPB σ b) (substPP σ p)
  | .ptr p => .ptr p
  | .ref rk t => .ref rk (substPT σ t)
  | .uninit => .uninit
  | .param n => .param n

def substPB (σ : List Expr) : BaseTy → BaseTy
  | .int => .int
  | .bool => .bool
  | .adt d ts => .adt d (substPTL σ ts)

def substPTL (σ : List Expr) : TyList → TyList
  | .nil => .nil
  | .cons t ts => .cons (substPT σ t) (substPTL σ ts)
end

/-- Modelled from the spec: `param_infer::infer_from_exprs` is declared in
the `param_infer` module (not under `src/`).  Per §4.2, "for every
occurrence of a free refinement-index variable in the signature, record
the concrete expression found at the matching position in the actual
field type": when the signature-side expression is a declared index
parameter, record the actual expression for it; other shapes record
nothing. -/
def inferFromExprs (ps : Params) (e₁ e₂ : Expr) : Params :=
  match e₂ with
  | .pvar k => ps.insert k e₁
  | _ => ps

/-- Unify an actual index list against a signature index list
(the `iter::zip(indices1, indices2)` loop of `ty_infer_folding`). -/
def inferIdxs (ps : Params) : List Expr → List Expr → Params
  | e₁ :: es₁, e₂ :: es₂ => inferIdxs (inferFromExprs ps e₁ e₂) es₁ es₂
  | _, _ => ps

mutual
/-- `ty_infer_folding`: structural unification of an actual (folded) field
type against the declared signature type.  Descends into indexed base
types and shared references; the raw-pointer versus raw-pointer case is
`todo!()` (process-fatal, modelled as `none`); every other combination
contributes nothing. -/
def tyInferFolding (ps : Params) : Ty → Ty → Option Params
  | .indexed b₁ i₁, .indexed b₂ i₂ =>
      (btyInferFolding ps b₁ b₂).map (fun ps' => inferIdxs ps' i₁ i₂)
  | .ptr _, .ptr _ => none
  | .ref .shr t₁, .ref .shr t₂ => tyInferFolding ps t₁ t₂
  | _, _ => some ps

/-- `bty_infer_folding`: descend through the generic substitutions when
both sides are the same ADT. -/
def btyInferFolding (ps : Params) : BaseTy → BaseTy → Option Params
  | .adt _ ts₁, .adt _ ts₂ => tyListInferFolding ps ts₁ ts₂
  | _, _ => some ps

/-- The `iter::zip(substs1, substs2)` loop of `bty_infer_folding`. -/
def tyListInferFolding (ps : Params) : TyList → TyList → Option Params
  | .cons t₁ ts₁, .cons t₂ ts₂ =>
      (tyInferFolding ps t₁ t₂).bind (fun ps' => tyListInferFolding ps' ts₁ ts₂)
  | _, _ => some ps
end

/-- The `iter::zip(tys, variant_sig.skip_binders().args())` loop of the
free function `fold`. -/
def unifyFields (ps : Params) : List Ty → List Ty → Option Params
  | t₁ :: ts₁, t₂ :: ts₂ =>
      (tyInferFolding ps t₁ t₂).bind (fun ps' => unifyFields ps' ts₁ ts₂)
  | _, _ => some ps

/-- The `adt_def.sorts().iter().enumerate().map(|(idx, _)|
params.remove(&idx).unwrap())` collection: read off the inferred
expression of every declared index `i, i+1, ..., i+m-1`; a missing
assignment is the `unwrap` panic, modelled as `none`. -/
def collectSorts (ps : Params) : ℕ → ℕ → Option (List Expr)
  | _, 0 => some []
  | i, m + 1 => (ps.lookup i).bind (fun e => (collectSorts ps (i + 1) m).map (e :: ·))

/-- The free function `fold` of `paths_tree.rs`: structural unification of
the folded field types against the variant signature, then one inferred
index expression per declared sort. -/
def fold (adtDef : AdtDef) (tys : List Ty) (v : ℕ) : Option (List Expr) :=
  (adtDef.variants[v]?).bind fun variant =>
  (unifyFields [] tys variant.fields).bind fun ps =>
  collectSorts ps 0 adtDef.nsorts

/-- Modelled from the spec: `Ty::unfold` is declared in
`liquid_rust_middle::ty` (not under `src/`).  Per §4.2, unfolding a Leaf
whose type is an ADT value naming the requested variant materializes one
type per declared field, "each carrying the field's type with the ADT's
declared refinement indices substituted" by the value's indices (the net
effect of minting fresh index variables bound to those indices); any
other type cannot be decomposed. -/
def Ty.unfold (g : Genv) (t : Ty) (v : ℕ) : Option (AdtDef × List Ty) :=
  match t with
  | .indexed (.adt defId _) idxs =>
      (Genv.find? g defId).bind fun adtDef =>
      (adtDef.variants[v]?).map fun variant =>
      (adtDef, variant.fields.map (substPT idxs))
  | _ => none

mutual
/-- A heap node (`Node`): either an opaque refined type (Leaf) or an
unfolded ADT record tagged with a variant, holding one child per field. -/
inductive Node where
  | ty (t : Ty)
  | adt (adtDef : AdtDef) (variantIdx : ℕ) (fields : NodeList)

/-- The `IndexVec<Field, Node>` of a record node. -/
inductive NodeList where
  | nil
  | cons (n : Node) (ns : NodeList)
end

deriving instance DecidableEq for Node

def NodeList.get? : NodeList → ℕ → Option Node
  | .nil, _ => none
  | .cons n _, 0 => some n
  | .cons _ ns, f + 1 => NodeList.get? ns f

def NodeList.set : NodeList → ℕ → Node → NodeList
  | .nil, _, _ => .nil
  | .cons _ ns, 0, n' => .cons n' ns
  | .cons n ns, f + 1, n' => .cons n (NodeList.set ns f n')

def NodeList.length : NodeList → ℕ
  | .nil => 0
  | .cons _ ns => NodeList.length ns + 1

def NodeList.ofTys : List Ty → NodeList
  | [] => .nil
  | t :: ts => .cons (.ty t) (NodeList.ofTys ts)

/-- `Node::unfold`: a Leaf is decomposed via `Ty::unfold` (the `unwrap`
panic on a non-decomposable type is `none`); a record is left as it is and
its existing fields are exposed. -/
def Node.unfoldN (g : Genv) (n : Node) (v : ℕ) : Option Node :=
  match n with
  | .ty t => (Ty.unfold g t v).map (fun p => .adt p.1 v (NodeList.ofTys p.2))
  | .adt a v' fs => some (.adt a v' fs)

mutual
/-- `Node::fold`: a Leaf is returned unchanged; a record first folds every
field bottom-up, then re-synthesizes the indices by structural unification
(`fold`) and becomes a Leaf of the ADT indexed by them. -/
def Node.fold : Node → Option (Ty × Node)
  | .ty t => some (t, .ty t)
  | .adt a v fs =>
      (NodeList.foldAll fs).bind fun tys =>
      (fold a tys.1 v).map fun idxs =>
      let t := Ty.indexed (.adt a.defId .nil) idxs
      (t, .ty t)

/-- The `fields.iter_mut().map(|n| n.fold(rcx).clone()).collect_vec()`
loop of `Node::fold`. -/
def NodeList.foldAll : NodeList → Option (List Ty × NodeList)
  | .nil => some ([], .nil)
  | .cons n ns =>
      (Node.fold n).bind fun p =>
      (NodeList.foldAll ns).map fun q =>
      (p.1 :: q.1, .cons p.2 q.2)
end

mutual
/-- Depth of a node tree, used to pick a sufficient fuel for the
reconciliation recursion. -/
def Node.depth : Node → ℕ
  | .ty _ => 1
  | .adt _ _ fs => NodeList.depthL fs + 1

/-- Maximum depth over the fields of a record. -/
def NodeList.depthL : NodeList → ℕ
  | .nil => 0
  | .cons n ns => max (Node.depth n) (NodeList.depthL ns)
end

mutual
/-- `Node::unfold_with`: align the decomposition depth of two nodes by
unfolding whichever side is a Leaf while the other is a record, then
recursing pairwise over the fields.  The recursion is bounded by explicit
fuel (the source walks two finite trees). -/
def Node.unfoldWith (g : Genv) (fuel : ℕ) (n₁ n₂ : Node) : Option (Node × Node) :=
  match fuel with
  | 0 => none
  | f + 1 =>
    match n₁, n₂ with
    | .ty t₁, .ty t₂ => some (.ty t₁, .ty t₂)
    | .ty t₁, .adt a₂ v₂ fs₂ =>
        (Node.unfoldN g (.ty t₁) v₂).bind fun n₁' =>
        match n₁' with
        | .adt a₁ v₁ fs₁ =>
            (NodeList.unfoldWithL g f fs₁ fs₂).map fun p =>
            (.adt a₁ v₁ p.1, .adt a₂ v₂ p.2)
        | .ty _ => none
    | .adt a₁ v₁ fs₁, .ty t₂ =>
        (Node.unfoldN g (.ty t₂) v₁).bind fun n₂' =>
        match n₂' with
        | .adt a₂ v₂ fs₂ =>
            (NodeList.unfoldWithL g f fs₁ fs₂).map fun p =>
            (.adt a₁ v₁ p.1, .adt a₂ v₂ p.2)
        | .ty _ => none
    | .adt a₁ v₁ fs₁, .adt a₂ v₂ fs₂ =>
        (NodeList.unfoldWithL g f fs₁ fs₂).map fun p =>
        (.adt a₁ v₁ p.1, .adt a₂ v₂ p.2)
  termination_by (fuel, 0)

/-- The zipped field recursion of `Node::unfold_with`; like the source's
`zip`, extra fields on one side are left untouched. -/
def NodeList.unfoldWithL (g : Genv) (fuel : ℕ) (ns₁ ns₂ : NodeList) : Option (NodeList × NodeList) :=
  match ns₁, ns₂ with
  | .nil, bs => some (.nil, bs)
  | as', .nil => some (as', .nil)
  | .cons a as', .cons b bs =>
      (Node.unfoldWith g fuel a b).bind fun p =>
      (NodeList.unfoldWithL g fuel as' bs).map fun q =>
      (.cons p.1 q.1, .cons p.2 q.2)
  termination_by (fuel, sizeOf ns₁)
end

/-- The symbolic heap (`PathsTree`): a finite map from locations to root
nodes, embedded as an association list with pairwise distinct keys. -/
abbrev PathsTree := List (Loc × Node)

def PathsTree.lookupLoc : PathsTree → Loc → Option Node
  | [], _ => none
  | (l, n) :: rest, loc => if l = loc then some n else PathsTree.lookupLoc rest loc

def PathsTree.updateLoc : PathsTree → Loc → Node → PathsTree
  | [], _, _ => []
  | (l, n) :: rest, loc, n' =>
      if l = loc then (l, n') :: rest else (l, n) :: PathsTree.updateLoc rest loc n'

/-- The per-location loop of `PathsTree::unfold_with`: every location of
the first tree that is also present in the second is reconciled pairwise,
updating both trees. -/
def PathsTree.unfoldWithGo (g : Genv) (fuel : ℕ) :
    List (Loc × Node) → PathsTree → Option (List (Loc × Node) × PathsTree)
  | [], t₂ => some ([], t₂)
  | (loc, n₁) :: rest, t₂ =>
    match PathsTree.lookupLoc t₂ loc with
    | none =>
        (PathsTree.unfoldWithGo g fuel rest t₂).map fun p =>
        ((loc, n₁) :: p.1, p.2)
    | some n₂ =>
        (Node.unfoldWith g fuel n₁ n₂).bind fun q =>
        (PathsTree.unfoldWithGo g fuel rest (PathsTree.updateLoc t₂ loc q.2)).map fun p =>
        ((loc, q.1) :: p.1, p.2)

/-- `PathsTree::unfold_with`. -/
def PathsTree.unfoldWith (g : Genv) (fuel : ℕ) (t₁ t₂ : PathsTree) :
    Option (PathsTree × PathsTree) :=
  PathsTree.unfoldWithGo g fuel t₁ t₂

/-- Walk a path's field projections down a node (`PathsTree::get`).  The
outer `Option` distinguishes an aborting out-of-bounds field access
(`fields[*f]`, `none`) from a regular `None`/`Some` answer. -/
def Node.getN : Node → List ℕ → Option (Option Ty)
  | .ty t, [] => some (some t)
  | .ty _, _ :: _ => some none
  | .adt _ _ _, [] => some none
  | .adt _ _ fs, f :: rest =>
    match NodeList.get? fs f with
    | none => none
    | some n => Node.getN n rest

/-- `PathsTree::get`: `some none` is the source returning `None`,
`some (some ty)` is `Some(ty)`, and `none` is an aborting field-index
panic. -/
def PathsTree.get (t : PathsTree) (p : Path) : Option (Option Ty) :=
  match PathsTree.lookupLoc t p.loc with
  | none => some none
  | some n => Node.getN n p.projection

/-- `PathsTree::get_mut`: same traversal as `get` (the source duplicates
the body with mutable references). -/
def PathsTree.getMut (t : PathsTree) (p : Path) : Option (Option Ty) :=
  match PathsTree.lookupLoc t p.loc with
  | none => some none
  | some n => Node.getN n p.projection

/-- `<PathsTree as Index>::index`: `get` followed by a panic on `None`;
`none` is the panic. -/
def PathsTree.index (t : PathsTree) (p : Path) : Option Ty :=
  match PathsTree.get t p with
  | some (some ty) => some ty
  | _ => none

/-- `<PathsTree as IndexMut>::index_mut`: `get_mut` followed by a panic on
`None`. -/
def PathsTree.indexMut (t : PathsTree) (p : Path) : Option Ty :=
  match PathsTree.getMut t p with
  | some (some ty) => some ty
  | _ => none

mutual
/-- All `(projection, leaf type)` pairs below a node in the depth-first
order of `PathsIter::next`. -/
def Node.paths : Node → List (List ℕ × Ty)
  | .ty t => [([], t)]
  | .adt _ _ fs => NodeList.pathsL 0 fs

/-- The stack-driven field enumeration of `PathsIter::next`, field `i`
first. -/
def NodeList.pathsL : ℕ → NodeList → List (List ℕ × Ty)
  | _, .nil => []
  | i, .cons n ns =>
      (Node.paths n).map (fun q => (i :: q.1, q.2)) ++ NodeList.pathsL (i + 1) ns
end

/-- `PathsTree::iter`: every path of every root node. -/
def PathsTree.iterPaths (t : PathsTree) : List (Path × Ty) :=
  t.flatMap fun e => (Node.paths e.2).map fun q => (⟨e.1, q.1⟩, q.2)

/-- One step of an unresolved place expression (`PlaceElem`). -/
inductive PlaceElem where
  | field (f : ℕ)
  | deref
  | downcast (v : ℕ)
deriving DecidableEq

/-- `FieldOrDowncast`. -/
inductive FieldOrDowncast where
  | field (f : ℕ)
  | downcast (v : ℕ)
deriving DecidableEq

/-- The `map_take_while(FieldOrDowncast::from_place_elem)` split: the
longest prefix of field/downcast elements, and the untouched remainder
(starting, if non-empty, with the element that failed to convert). -/
def splitFD : List PlaceElem → List FieldOrDowncast × List PlaceElem
  | [] => ([], [])
  | .field f :: rest => ((splitFD rest).1.cons (.field f), (splitFD rest).2)
  | .downcast v :: rest => ((splitFD rest).1.cons (.downcast v), (splitFD rest).2)
  | .deref :: rest => ([], .deref :: rest)

/-- The field indices pushed onto `proj` during the walk (downcasts move
no position). -/
def fieldsOf : List FieldOrDowncast → List ℕ
  | [] => []
  | .field f :: r => f :: fieldsOf r
  | .downcast _ :: r => fieldsOf r

/-- `LookupResult`: a direct mutable handle at a resolved path, or a
read-only dereferenced view with its reference mode. -/
inductive LookupResult where
  | ptr (p : Path) (ty : Ty)
  | ref (rk : RefKind) (ty : Ty)

/-- The walking loop of `lookup_place_iter`: descend through the
field/downcast prefix (`Node::proj` auto-unfolds a Leaf at variant 0,
`Node::unfold` handles a downcast in place), then fold the reached node.
Returns the folded type, and the node with the walk's unfoldings and the
fold applied. -/
def descendFold (g : Genv) : Node → List FieldOrDowncast → Option (Ty × Node)
  | n, [] => Node.fold n
  | n, .downcast v :: rest =>
      (Node.unfoldN g n v).bind fun n' => descendFold g n' rest
  | n, .field f :: rest =>
      (match n with
        | .ty t => Node.unfoldN g (.ty t) 0
        | .adt a v fs => some (.adt a v fs)).bind fun n' =>
      match n' with
      | .adt a v fs =>
          (NodeList.get? fs f).bind fun c =>
          (descendFold g c rest).map fun (p : Ty × Node) =>
          (p.1, .adt a v (NodeList.set fs f p.2))
      | .ty _ => none

mutual
/-- `PathsTree::lookup_place_iter`.  Explicit fuel bounds the raw-pointer
indirection loop (`path = ptr_path`); each loop iteration re-walks the new
path's projection, splits the next field/downcast prefix off the place,
folds the reached node, and dispatches on the folded type at the next
dereference.  Every `unwrap`/`unreachable!` is `none`. -/
def lookupPlaceIter (g : Genv) (fuel : ℕ) (t : PathsTree) (path : Path)
    (elems : List PlaceElem) : Option (LookupResult × PathsTree) :=
  match fuel with
  | 0 => none
  | f + 1 =>
    let s := splitFD elems
    let allFD := path.projection.map FieldOrDowncast.field ++ s.1
    (PathsTree.lookupLoc t path.loc).bind fun node =>
    (descendFold g node allFD).bind fun d =>
    let t' := PathsTree.updateLoc t path.loc d.2
    match s.2 with
    | [] => some (.ptr ⟨path.loc, fieldsOf allFD⟩ d.1, t')
    | .deref :: rest =>
      match d.1 with
      | .ptr p => lookupPlaceIter g f t' p rest
      | .ref mode ty => (placeProjTy g f t' mode ty rest).map fun r =>
          (.ref r.1 r.2.1, r.2.2)
      | _ => none
    | _ :: _ => none
  termination_by (fuel, 0)

/-- `PathsTree::place_proj_ty`: read-only traversal of a dereferenced
type.  A further reference dereference degrades the mode with
`RefKind.min`; a raw-pointer dereference re-enters `lookup_place_iter`
and wraps either outcome as a reference view; a field projection unfolds
at variant 0 and projects.  Always produces a reference-mode view. -/
def placeProjTy (g : Genv) (fuel : ℕ) (t : PathsTree) (mode : RefKind) (ty : Ty)
    (elems : List PlaceElem) : Option (RefKind × Ty × PathsTree) :=
  match elems with
  | [] => some (mode, ty, t)
  | .deref :: rest =>
    match ty with
    | .ref mode₂ ty₂ => placeProjTy g fuel t (RefKind.min mode mode₂) ty₂ rest
    | .ptr p =>
        (lookupPlaceIter g fuel t p rest).map fun r =>
        match r.1 with
        | .ptr _ ty' => (mode, ty', r.2)
        | .ref mode₂ ty₂ => (RefKind.min mode mode₂, ty₂, r.2)
    | _ => none
  | .field f :: rest =>
      (Ty.unfold g ty 0).bind fun p =>
      (p.2[f]?).bind fun ty' =>
      placeProjTy g fuel t mode ty' rest
  | .downcast _ :: _ => none
  termination_by (fuel, elems.length + 1)
end

mutual
/-- Instrumented `lookup_place_iter`: identical control flow, but also
returns the list of reference modes of every reference dereferenced
during resolution (ghost data; erased by projecting it away). -/
def lookupPlaceIterTr (g : Genv) (fuel : ℕ) (t : PathsTree) (path : Path)
    (elems : List PlaceElem) : Option (LookupResult × List RefKind × PathsTree) :=
  match fuel with
  | 0 => none
  | f + 1 =>
    let s := splitFD elems
    let allFD := path.projection.map FieldOrDowncast.field ++ s.1
    (PathsTree.lookupLoc t path.loc).bind fun node =>
    (descendFold g node allFD).bind fun d =>
    let t' := PathsTree.updateLoc t path.loc d.2
    match s.2 with
    | [] => some (.ptr ⟨path.loc, fieldsOf allFD⟩ d.1, [], t')
    | .deref :: rest =>
      match d.1 with
      | .ptr p => lookupPlaceIterTr g f t' p rest
      | .ref mode ty => (placeProjTyTr g f t' mode ty rest).map fun r =>
          (.ref r.1 r.2.1, mode :: r.2.2.1, r.2.2.2)
      | _ => none
    | _ :: _ => none
  termination_by (fuel, 0)

/-- Instrumented `place_proj_ty`: also returns the modes of the further
references dereferenced during the read-only traversal. -/
def placeProjTyTr (g : Genv) (fuel : ℕ) (t : PathsTree) (mode : RefKind) (ty : Ty)
    (elems : List PlaceElem) : Option (RefKind × Ty × List RefKind × PathsTree) :=
  match elems with
  | [] => some (mode, ty, [], t)
  | .deref :: rest =>
    match ty with
    | .ref mode₂ ty₂ =>
        (placeProjTyTr g fuel t (RefKind.min mode mode₂) ty₂ rest).map fun r =>
        (r.1, r.2.1, mode₂ :: r.2.2.1, r.2.2.2)
    | .ptr p =>
        (lookupPlaceIterTr g fuel t p rest).map fun r =>
        match r.1 with
        | .ptr _ ty' => (mode, ty', r.2.1, r.2.2)
        | .ref mode₂ ty₂ => (RefKind.min mode mode₂, ty₂, r.2.1, r.2.2)
    | _ => none
  | .field f :: rest =>
      (Ty.unfold g ty 0).bind fun p =>
      (p.2[f]?).bind fun ty' =>
      placeProjTyTr g fuel t mode ty' rest
  | .downcast _ :: _ => none
  termination_by (fuel, elems.length + 1)
end

/-- The combinations of actual/signature shapes that `ty_infer_folding`
descends into or aborts on: both indexed, both raw pointers, or both
shared references.  Every other combination falls into the catch-all. -/
def descendShape : Ty → Ty → Bool
  | .indexed _ _, .indexed _ _ => true
  | .ptr _, .ptr _ => true
  | .ref .shr _, .ref .shr _ => true
  | _, _ => false

mutual
/-- A signature type avoids the unimplemented raw-pointer unification at
every position that fold's structural unification reaches (top level,
shared-reference pointees and ADT generic substitutions). -/
def sigOkT : Ty → Bool
  | .indexed b _ => sigOkB b
  | .exist _ _ => true
  | .ptr _ => false
  | .ref .shr t => sigOkT t
  | .ref .mut _ => true
  | .uninit => true
  | .param _ => true

def sigOkB : BaseTy → Bool
  | .adt _ ts => sigOkTL ts
  | _ => true

def sigOkTL : TyList → Bool
  | .nil => true
  | .cons t ts => sigOkT t && sigOkTL ts
end

mutual
/-- The declared index parameter `k` occurs, as a whole index expression,
at some position of the signature type that fold's structural unification
reaches. -/
def occursT (k : ℕ) : Ty → Bool
  | .indexed b idxs => occursB k b || idxs.any (fun e => e == Expr.pvar k)
  | .ref .shr t => occursT k t
  | _ => false

def occursB (k : ℕ) : BaseTy → Bool
  | .adt _ ts => occursTL k ts
  | _ => false

def occursTL (k : ℕ) : TyList → Bool
  | .nil => false
  | .cons t ts => occursT k t || occursTL k ts
end

/-- Every field index of the projection is in bounds at each record node
it traverses (the precondition under which `get`'s `fields[*f]` indexing
cannot abort). -/
def Node.inBnds : Node → List ℕ → Bool
  | _, [] => true
  | .ty _, _ :: _ => true
  | .adt _ _ fs, f :: rest =>
    match NodeList.get? fs f with
    | none => false
    | some n => Node.inBnds n rest

def PathsTree.inBnds (t : PathsTree) (p : Path) : Bool :=
  match PathsTree.lookupLoc t p.loc with
  | none => true
  | some n => Node.inBnds n p.projection

/-- Stated from the claim's words: the path "projects a field through a
Leaf node" or "ends at a Record rather than a Leaf" (evaluated below a
present root node). -/
def Node.missCond : Node → List ℕ → Bool
  | .ty _, [] => false
  | .ty _, _ :: _ => true
  | .adt _ _ _, [] => true
  | .adt _ _ fs, f :: rest =>
    match NodeList.get? fs f with
    | none => true
    | some n => Node.missCond n rest

/-- Stated from the claim's words: "the path's location is absent from
the heap, or the path projects a field through a Leaf, or the path ends
at a Record rather than a Leaf". -/
def PathsTree.missCond (t : PathsTree) (p : Path) : Bool :=
  match PathsTree.lookupLoc t p.loc with
  | none => true
  | some n => Node.missCond n p.projection

lemma refmin_shr_iff (a b : RefKind) :
    RefKind.min a b = .shr ↔ (a = .shr ∨ b = .shr) := by
  cases a <;> cases b <;> simp [RefKind.min]

lemma ppt_erase (g : Genv) (f : ℕ)
    (hlp : ∀ (t : PathsTree) (p : Path) (e : List PlaceElem),
        lookupPlaceIter g f t p e
          = (lookupPlaceIterTr g f t p e).map (fun r => (r.1, r.2.2))) :
    ∀ (elems : List PlaceElem) (t : PathsTree) (m : RefKind) (ty : Ty),
      placeProjTy g f t m ty elems
        = (placeProjTyTr g f t m ty elems).map (fun r => (r.1, r.2.1, r.2.2.2)) := by
  intro elems
  induction elems with
  | nil => intro t m ty; simp [placeProjTy, placeProjTyTr]
  | cons el rest ih =>
      intro t m ty
      cases el with
      | deref =>
          cases ty with
          | ref mode₂ ty₂ =>
              cases h : placeProjTyTr g f t (RefKind.min m mode₂) ty₂ rest <;>
                simp [placeProjTy, placeProjTyTr, ih, h]
          | ptr p =>
              cases h : lookupPlaceIterTr g f t p rest with
              | none => simp [placeProjTy, placeProjTyTr, hlp, h]
              | some r =>
                  obtain ⟨lr, cs, t'⟩ := r
                  cases lr <;> simp [placeProjTy, placeProjTyTr, hlp, h]
          | indexed b i => simp [placeProjTy, placeProjTyTr]
          | exist b p => simp [placeProjTy, placeProjTyTr]
          | uninit => simp [placeProjTy, placeProjTyTr]
          | param n => simp [placeProjTy, placeProjTyTr]
      | field fnum =>
          cases hu : Ty.unfold g ty 0 with
          | none => simp [placeProjTy, placeProjTyTr, hu]
          | some pr =>
              cases hf : pr.2[fnum]? with
              | none => simp [placeProjTy, placeProjTyTr, hu, hf]
              | some ty' => simp [placeProjTy, placeProjTyTr, hu, hf, ih]
      | downcast v => simp [placeProjTy, placeProjTyTr]

lemma lp_erase (g : Genv) : ∀ (f : ℕ) (t : PathsTree) (p : Path) (e : List PlaceElem),
    lookupPlaceIter g f t p e
      = (lookupPlaceIterTr g f t p e).map (fun r => (r.1, r.2.2)) := by
  intro f
  induction f with
  | zero => intro t p e; simp [lookupPlaceIter, lookupPlaceIterTr]
  | succ f ih =>
      intro t p e
      cases hn : PathsTree.lookupLoc t p.loc with
      | none => simp [lookupPlaceIter, lookupPlaceIterTr, hn]
      | some node =>
          cases hd : descendFold g node (p.projection.map FieldOrDowncast.field ++ (splitFD e).1) with
          | none => simp [lookupPlaceIter, lookupPlaceIterTr, hn, hd]
          | some d =>
              obtain ⟨dty, dnode⟩ := d
              cases hs : (splitFD e).2 with
              | nil => simp [lookupPlaceIter, lookupPlaceIterTr, hn, hd, hs]
              | cons el rest =>
                  cases el with
                  | deref =>
                      cases dty with
                      | ptr q =>
                          simp [lookupPlaceIter, lookupPlaceIterTr, hn, hd, hs, ih]
                      | ref mode ty =>
                          cases hr : placeProjTyTr g f
                              (PathsTree.updateLoc t p.loc dnode) mode ty rest <;>
                            simp [lookupPlaceIter, lookupPlaceIterTr, hn, hd, hs,
                              ppt_erase g f ih, hr]
                      | indexed b i => simp [lookupPlaceIter, lookupPlaceIterTr, hn, hd, hs]
                      | exist b pp => simp [lookupPlaceIter, lookupPlaceIterTr, hn, hd, hs]
                      | uninit => simp [lookupPlaceIter, lookupPlaceIterTr, hn, hd, hs]
                      | param n => simp [lookupPlaceIter, lookupPlaceIterTr, hn, hd, hs]
                  | field fnum => simp [lookupPlaceIter, lookupPlaceIterTr, hn, hd, hs]
                  | downcast v => simp [lookupPlaceIter, lookupPlaceIterTr, hn, hd, hs]

lemma ppt_mode (g : Genv) (f : ℕ)
    (hlp : ∀ (t : PathsTree) (p : Path) (e : List PlaceElem) (r : LookupResult)
        (cs : List RefKind) (t' : PathsTree),
        lookupPlaceIterTr g f t p e = some (r, cs, t') →
        (∀ q ty', r = .ptr q ty' → cs = []) ∧
        (∀ m' ty', r = .ref m' ty' → cs ≠ [] ∧ (m' = .shr ↔ .shr ∈ cs))) :
    ∀ (elems : List PlaceElem) (t : PathsTree) (m : RefKind) (ty : Ty)
      (m' : RefKind) (ty' : Ty) (cs : List RefKind) (t' : PathsTree),
      placeProjTyTr g f t m ty elems = some (m', ty', cs, t') →
      (m' = .shr ↔ (m = .shr ∨ .shr ∈ cs)) := by
  intro elems
  induction elems with
  | nil =>
      intro t m ty m' ty' cs t' h
      simp [placeProjTyTr] at h
      obtain ⟨rfl, _, rfl, _⟩ := h
      simp
  | cons el rest ih =>
      intro t m ty m' ty' cs t' h
      cases el with
      | deref =>
          cases ty with
          | ref mode₂ ty₂ =>
              simp only [placeProjTyTr] at h
              cases hr : placeProjTyTr g f t (RefKind.min m mode₂) ty₂ rest with
              | none => rw [hr] at h; simp at h
              | some r4 =>
                  rw [hr] at h
                  obtain ⟨m₄, ty₄, cs₄, t₄⟩ := r4
                  simp only [Option.map_some', Option.some.injEq, Prod.mk.injEq] at h
                  obtain ⟨rfl, _, rfl, _⟩ := h
                  have hiff := ih t (RefKind.min m mode₂) ty₂ m₄ ty₄ cs₄ t₄ hr
                  rw [hiff, refmin_shr_iff]
                  simp [List.mem_cons, eq_comm]
                  tauto
          | ptr p =>
              simp only [placeProjTyTr] at h
              cases hr : lookupPlaceIterTr g f t p rest with
              | none => rw [hr] at h; simp at h
              | some r3 =>
                  rw [hr] at h
                  obtain ⟨lr, cs₀, t₀⟩ := r3
                  have hinv := hlp t p rest lr cs₀ t₀ hr
                  cases lr with
                  | ptr q ty₀ =>
                      have hcs : cs₀ = [] := hinv.1 q ty₀ rfl
                      subst hcs
                      simp only [Option.map_some', Option.some.injEq, Prod.mk.injEq] at h
                      obtain ⟨rfl, _, rfl, _⟩ := h
                      simp
                  | ref m₂ ty₂ =>
                      have href := (hinv.2 m₂ ty₂ rfl).2
                      simp only [Option.map_some', Option.some.injEq, Prod.mk.injEq] at h
                      obtain ⟨rfl, _, rfl, _⟩ := h
                      rw [refmin_shr_iff, href]
          | indexed b i => simp [placeProjTyTr] at h
          | exist b pp => simp [placeProjTyTr] at h
          | uninit => simp [placeProjTyTr] at h
          | param n => simp [placeProjTyTr] at h
      | field fnum =>
          simp only [placeProjTyTr] at h
          cases hu : Ty.unfold g ty 0 with
          | none => rw [hu] at h; simp at h
          | some pr =>
              rw [hu] at h
              simp only [Option.some_bind] at h
              cases hf : pr.2[fnum]? with
              | none => rw [hf] at h; simp at h
              | some ty₀ =>
                  rw [hf] at h
                  simp only [Option.some_bind] at h
                  exact ih t m ty₀ m' ty' cs t' h
      | downcast v => simp [placeProjTyTr] at h

lemma lp_mode (g : Genv) : ∀ (f : ℕ) (t : PathsTree) (p : Path) (e : List PlaceElem)
    (r : LookupResult) (cs : List RefKind) (t' : PathsTree),
    lookupPlaceIterTr g f t p e = some (r, cs, t') →
    (∀ q ty', r = .ptr q ty' → cs = []) ∧
    (∀ m' ty', r = .ref m' ty' → cs ≠ [] ∧ (m' = .shr ↔ .shr ∈ cs)) := by
  intro f
  induction f with
  | zero => intro t p e r cs t' h; simp [lookupPlaceIterTr] at h
  | succ f ih =>
      intro t p e r cs t' h
      cases hn : PathsTree.lookupLoc t p.loc with
      | none => simp [lookupPlaceIterTr, hn] at h
      | some node =>
          cases hd : descendFold g node
              (p.projection.map FieldOrDowncast.field ++ (splitFD e).1) with
          | none => simp [lookupPlaceIterTr, hn, hd] at h
          | some d =>
              obtain ⟨dty, dnode⟩ := d
              cases hs : (splitFD e).2 with
              | nil =>
                  simp only [lookupPlaceIterTr, hn, hd, hs, Option.some_bind,
                    Option.some.injEq, Prod.mk.injEq] at h
                  obtain ⟨rfl, rfl, _⟩ := h
                  constructor
                  · intro q ty' _; rfl
                  · intro m' ty' heq; exact absurd heq (by simp)
              | cons el rest =>
                  cases el with
                  | deref =>
                      cases dty with
                      | ptr q =>
                          simp only [lookupPlaceIterTr, hn, hd, hs,
                            Option.some_bind] at h
                          exact ih _ _ _ r cs t' h
                      | ref mode ty =>
                          simp only [lookupPlaceIterTr, hn, hd, hs,
                            Option.some_bind] at h
                          cases hr : placeProjTyTr g f
                              (PathsTree.updateLoc t p.loc dnode) mode ty rest with
                          | none => rw [hr] at h; simp at h
                          | some r4 =>
                              rw [hr] at h
                              obtain ⟨m₄, ty₄, cs₄, t₄⟩ := r4
                              simp only [Option.map_some', Option.some.injEq,
                                Prod.mk.injEq] at h
                              obtain ⟨rfl, rfl, _⟩ := h
                              have hiff := ppt_mode g f ih rest
                                (PathsTree.updateLoc t p.loc dnode) mode ty
                                m₄ ty₄ cs₄ t₄ hr
                              constructor
                              · intro q ty' heq; exact absurd heq (by simp)
                              · intro m' ty' heq
                                injection heq with h₁ h₂
                                subst h₁
                                refine ⟨by simp, ?_⟩
                                rw [hiff]
                                simp [List.mem_cons, eq_comm]
                      | indexed b i => simp [lookupPlaceIterTr, hn, hd, hs] at h
                      | exist b pp => simp [lookupPlaceIterTr, hn, hd, hs] at h
                      | uninit => simp [lookupPlaceIterTr, hn, hd, hs] at h
                      | param n => simp [lookupPlaceIterTr, hn, hd, hs] at h
                  | field fnum => simp [lookupPlaceIterTr, hn, hd, hs] at h
                  | downcast v => simp [lookupPlaceIterTr, hn, hd, hs] at h

/-- C3.  The place resolver agrees with its reference-mode-instrumented
variant with the ghost data erased; whenever resolution dereferences at
least one reference (the crossed-mode list is non-empty) the result is a
read-only `LookupResult::Ref` carrying a copied type, whose mode is
shared iff at least one crossed reference dereference was shared —
independent of the order of the crossed modes; and a direct `Ptr` handle
is returned only when no reference was crossed. -/
theorem lookup_place_ref_modes :
    ∀ (g : Genv) (fuel : ℕ) (t : PathsTree) (path : Path) (elems : List PlaceElem),
      lookupPlaceIter g fuel t path elems
        = (lookupPlaceIterTr g fuel t path elems).map (fun r => (r.1, r.2.2)) ∧
      ∀ (r : LookupResult) (cs : List RefKind) (t' : PathsTree),
        lookupPlaceIterTr g fuel t path elems = some (r, cs, t') →
        (∀ q ty', r = .ptr q ty' → cs = []) ∧
        (cs ≠ [] → ∃ m ty', r = .ref m ty' ∧ (m = .shr ↔ .shr ∈ cs)) := by
  intro g fuel t path elems
  refine ⟨lp_erase g fuel t path elems, ?_⟩
  intro r cs t' h
  have hm := lp_mode g fuel t path elems r cs t' h
  refine ⟨hm.1, ?_⟩
  intro hne
  cases r with
  | ptr q ty' => exact absurd (hm.1 q ty' rfl) hne
  | ref m ty' => exact ⟨m, ty', rfl, (hm.2 m ty' rfl).2⟩

/-- Witness for C3: dereferencing a shared reference to an uninitialized
Leaf crosses exactly one shared reference and yields a shared read-only
view. -/
theorem lookup_place_ref_modes_witness :
    lookupPlaceIter [] 2 [(Loc.local 0, Node.ty (Ty.ref .shr Ty.uninit))]
        ⟨Loc.local 0, []⟩ [.deref]
      = (lookupPlaceIterTr [] 2 [(Loc.local 0, Node.ty (Ty.ref .shr Ty.uninit))]
          ⟨Loc.local 0, []⟩ [.deref]).map (fun r => (r.1, r.2.2)) ∧
    ∃ m ty', (LookupResult.ref .shr Ty.uninit) = .ref m ty' ∧
      (m = .shr ↔ .shr ∈ [RefKind.shr]) := by
  have h := lookup_place_ref_modes [] 2 [(Loc.local 0, Node.ty (Ty.ref .shr Ty.uninit))]
    ⟨Loc.local 0, []⟩ [.deref]
  refine ⟨h.1, ?_⟩
  exact (h.2 (.ref .shr Ty.uninit) [RefKind.shr]
    [(Loc.local 0, Node.ty (Ty.ref .shr Ty.uninit))]
    (by simp [lookupPlaceIterTr, placeProjTyTr, splitFD, descendFold, Node.fold,
      PathsTree.lookupLoc, PathsTree.updateLoc, fieldsOf]) |>.2 (by simp))

lemma tyInferFolding_ref_default (ps : Params) (rk : RefKind) (a t₂ : Ty)
    (h : descendShape (.ref rk a) t₂ = false) :
    tyInferFolding ps (.ref rk a) t₂ = some ps := by
  cases t₂ <;> try (cases rk <;> rfl)
  rename_i rk₂ b
  cases rk <;> cases rk₂ <;> first | rfl | simp [descendShape] at h

/-- C6.  Fold's structural unification descends only into indexed base
types (recursing index-by-index and, via `bty_infer_folding`, through the
generic substitutions of matching ADTs) and into shared references;
raw pointer against raw pointer aborts as explicitly unimplemented
(process-fatal for every input reaching that case); every other
combination of shapes contributes no bindings and does not abort. -/
theorem infer_folding_shapes :
    (∀ (ps : Params) (p₁ p₂ : Path), tyInferFolding ps (.ptr p₁) (.ptr p₂) = none) ∧
    (∀ (ps : Params) (t₁ t₂ : Ty), descendShape t₁ t₂ = false →
        tyInferFolding ps t₁ t₂ = some ps) ∧
    (∀ (ps : Params) (a b : Ty),
        tyInferFolding ps (.ref .shr a) (.ref .shr b) = tyInferFolding ps a b) ∧
    (∀ (ps : Params) (b₁ : BaseTy) (i₁ : List Expr) (b₂ : BaseTy) (i₂ : List Expr),
        tyInferFolding ps (.indexed b₁ i₁) (.indexed b₂ i₂)
          = (btyInferFolding ps b₁ b₂).map (fun ps' => inferIdxs ps' i₁ i₂)) ∧
    (∀ (ps : Params) (d₁ : ℕ) (ts₁ : TyList) (d₂ : ℕ) (ts₂ : TyList),
        btyInferFolding ps (.adt d₁ ts₁) (.adt d₂ ts₂) = tyListInferFolding ps ts₁ ts₂) := by
  refine ⟨?_, ?_, ?_, ?_, ?_⟩
  · intro ps p₁ p₂; rfl
  · intro ps t₁ t₂ h
    cases t₁ with
    | ref rk a => exact tyInferFolding_ref_default ps rk a t₂ h
    | indexed b i => cases t₂ <;> first | rfl | simp [descendShape] at h
    | exist b p => cases t₂ <;> first | rfl | simp [descendShape] at h
    | ptr p => cases t₂ <;> first | rfl | simp [descendShape] at h
    | uninit => cases t₂ <;> first | rfl | simp [descendShape] at h
    | param n => cases t₂ <;> first | rfl | simp [descendShape] at h
  · intro ps a b; rfl
  · intro ps b₁ i₁ b₂ i₂; rfl
  · intro ps d₁ ts₁ d₂ ts₂; rfl

/-- Witness for C6: the uninitialized marker against a type parameter is
a non-descending combination and leaves the bindings untouched. -/
theorem infer_folding_shapes_witness :
    tyInferFolding [] Ty.uninit (Ty.param 0) = some [] :=
  infer_folding_shapes.2.1 [] Ty.uninit (Ty.param 0) rfl

lemma ofTys_length : ∀ l : List Ty, NodeList.length (NodeList.ofTys l) = l.length := by
  intro l
  induction l with
  | nil => rfl
  | cons t ts ih => simp [NodeList.ofTys, NodeList.length, ih]

/-- C4.  `Node::unfold` at variant `v` is a no-op returning the existing
fields on a record already tagged `v`; on a Leaf whose type decomposes
under `v` it produces a record with exactly one child per declared field
of the variant signature; and on a Leaf whose type cannot be decomposed
it is process-fatal (`none`), not a recoverable error. -/
theorem node_unfold_spec :
    (∀ (g : Genv) (a : AdtDef) (v : ℕ) (fs : NodeList),
        Node.unfoldN g (.adt a v fs) v = some (.adt a v fs)) ∧
    (∀ (g : Genv) (defId : ℕ) (substs : TyList) (idxs : List Expr) (v : ℕ)
        (adtDef : AdtDef) (variant : Variant),
        Genv.find? g defId = some adtDef →
        adtDef.variants[v]? = some variant →
        ∃ fs, Node.unfoldN g (.ty (.indexed (.adt defId substs) idxs)) v
            = some (.adt adtDef v fs) ∧ NodeList.length fs = variant.fields.length) ∧
    (∀ (g : Genv) (t : Ty) (v : ℕ), Ty.unfold g t v = none →
        Node.unfoldN g (.ty t) v = none) := by
  refine ⟨?_, ?_, ?_⟩
  · intro g a v fs; rfl
  · intro g defId substs idxs v adtDef variant h₁ h₂
    refine ⟨NodeList.ofTys (variant.fields.map (substPT idxs)), ?_, ?_⟩
    · simp [Node.unfoldN, Ty.unfold, h₁, h₂]
    · simp [ofTys_length]
  · intro g t v h
    simp [Node.unfoldN, h]

/-- Witness for C4: a one-variant, one-field ADT unfolds a matching Leaf
into a one-field record, and the uninitialized marker cannot be
decomposed. -/
theorem node_unfold_spec_witness :
    (∃ fs, Node.unfoldN [⟨0, 1, [⟨[Ty.uninit]⟩]⟩]
        (.ty (.indexed (.adt 0 .nil) [.fvar 0])) 0
        = some (.adt ⟨0, 1, [⟨[Ty.uninit]⟩]⟩ 0 fs) ∧ NodeList.length fs = 1) ∧
    Node.unfoldN [] (.ty Ty.uninit) 0 = none := by
  constructor
  · exact node_unfold_spec.2.1 [⟨0, 1, [⟨[Ty.uninit]⟩]⟩] 0 .nil [.fvar 0] 0
      ⟨0, 1, [⟨[Ty.uninit]⟩]⟩ ⟨[Ty.uninit]⟩ rfl rfl
  · exact node_unfold_spec.2.2 [] Ty.uninit 0 rfl

lemma getN_spec : ∀ (proj : List ℕ) (n : Node), Node.inBnds n proj = true →
    (∃ r, Node.getN n proj = some r) ∧
    (Node.getN n proj = some none ↔ Node.missCond n proj = true) := by
  intro proj
  induction proj with
  | nil =>
      intro n _
      cases n with
      | ty t => exact ⟨⟨some t, rfl⟩, by simp [Node.getN, Node.missCond]⟩
      | adt a v fs => exact ⟨⟨none, rfl⟩, by simp [Node.getN, Node.missCond]⟩
  | cons f rest ih =>
      intro n hb
      cases n with
      | ty t => exact ⟨⟨none, rfl⟩, by simp [Node.getN, Node.missCond]⟩
      | adt a v fs =>
          simp only [Node.inBnds] at hb
          cases hg : NodeList.get? fs f with
          | none => rw [hg] at hb; exact absurd hb (by simp)
          | some n' =>
              rw [hg] at hb
              have := ih n' hb
              simpa [Node.getN, Node.missCond, hg] using this

/-- C10.  For every heap and every path whose field indices are in bounds
at each record traversed: `get` returns without aborting, and returns
`None` exactly when the location is absent, the path projects a field
through a Leaf, or the path ends at a record; `get_mut` agrees with `get`
on both the `Some`/`None` outcome and the designated type; and the
`Index`/`IndexMut` operators panic precisely where `get`/`get_mut`
return `None`. -/
theorem get_index_spec : ∀ (t : PathsTree) (p : Path), PathsTree.inBnds t p = true →
    (∃ r, PathsTree.get t p = some r) ∧
    (PathsTree.get t p = some none ↔ PathsTree.missCond t p = true) ∧
    PathsTree.getMut t p = PathsTree.get t p ∧
    (PathsTree.index t p = none ↔ PathsTree.get t p = some none) ∧
    PathsTree.indexMut t p = PathsTree.index t p := by
  intro t p hb
  simp only [PathsTree.inBnds] at hb
  have hmain : (∃ r, PathsTree.get t p = some r) ∧
      (PathsTree.get t p = some none ↔ PathsTree.missCond t p = true) := by
    cases hl : PathsTree.lookupLoc t p.loc with
    | none =>
        refine ⟨⟨none, ?_⟩, ?_⟩ <;> simp [PathsTree.get, PathsTree.missCond, hl]
    | some n =>
        rw [hl] at hb
        have := getN_spec p.projection n hb
        constructor
        · rcases this.1 with ⟨r, hr⟩
          exact ⟨r, by simp [PathsTree.get, hl, hr]⟩
        · simpa [PathsTree.get, PathsTree.missCond, hl] using this.2
  refine ⟨hmain.1, hmain.2, rfl, ?_, rfl⟩
  rcases hmain.1 with ⟨r, hr⟩
  cases r with
  | none => simp [PathsTree.index, hr]
  | some ty => simp [PathsTree.index, hr]

/-- Witness for C10: a heap holding a single Leaf at a local, probed at
that local's empty path. -/
theorem get_index_spec_witness :
    (∃ r, PathsTree.get [(Loc.local 0, Node.ty Ty.uninit)] ⟨Loc.local 0, []⟩ = some r) ∧
    (PathsTree.get [(Loc.local 0, Node.ty Ty.uninit)] ⟨Loc.local 0, []⟩ = some none
      ↔ PathsTree.missCond [(Loc.local 0, Node.ty Ty.uninit)] ⟨Loc.local 0, []⟩ = true) ∧
    PathsTree.getMut [(Loc.local 0, Node.ty Ty.uninit)] ⟨Loc.local 0, []⟩
      = PathsTree.get [(Loc.local 0, Node.ty Ty.uninit)] ⟨Loc.local 0, []⟩ ∧
    (PathsTree.index [(Loc.local 0, Node.ty Ty.uninit)] ⟨Loc.local 0, []⟩ = none
      ↔ PathsTree.get [(Loc.local 0, Node.ty Ty.uninit)] ⟨Loc.local 0, []⟩ = some none) ∧
    PathsTree.indexMut [(Loc.local 0, Node.ty Ty.uninit)] ⟨Loc.local 0, []⟩
      = PathsTree.index [(Loc.local 0, Node.ty Ty.uninit)] ⟨Loc.local 0, []⟩ :=
  get_index_spec [(Loc.local 0, Node.ty Ty.uninit)] ⟨Loc.local 0, []⟩ rfl

lemma collectSorts_none : ∀ (m i k : ℕ) (ps : Params), i ≤ k → k < i + m →
    Params.lookup ps k = none → collectSorts ps i m = none := by
  intro m
  induction m with
  | zero => intro i k ps h₁ h₂ _; omega
  | succ m ih =>
      intro i k ps h₁ h₂ h₃
      by_cases hik : k = i
      · subst hik; simp [collectSorts, h₃]
      · cases hl : Params.lookup ps i with
        | none => simp [collectSorts, hl]
        | some e =>
            have : collectSorts ps (i + 1) m = none := ih (i + 1) k ps (by omega) (by omega) h₃
            simp [collectSorts, hl, this]

lemma collectSorts_length : ∀ (m i : ℕ) (ps : Params) (l : List Expr),
    collectSorts ps i m = some l → l.length = m := by
  intro m
  induction m with
  | zero => intro i ps l h; simp [collectSorts] at h; simp [← h]
  | succ m ih =>
      intro i ps l h
      cases hl : Params.lookup ps i with
      | none => rw [collectSorts, hl] at h; simp at h
      | some e =>
          rw [collectSorts, hl] at h
          cases hc : collectSorts ps (i + 1) m with
          | none => rw [hc] at h; simp at h
          | some l' =>
              rw [hc] at h
              simp at h
              have := ih (i + 1) ps l' hc
              simp [← h, this]

/-- C2.  If the tagged variant's declared signature leaves some declared
refinement index of the ADT unassigned after structural unification over
the folded field types, folding the record aborts process-fatally; and
`fold` never returns a partially instantiated indexed type — a successful
fold yields the ADT indexed by exactly one expression per declared
sort. -/
theorem fold_fatal_on_unassigned :
    (∀ (a : AdtDef) (v : ℕ) (fs : NodeList) (tys : List Ty) (r : NodeList)
        (variant : Variant) (ps : Params) (k : ℕ),
        NodeList.foldAll fs = some (tys, r) →
        a.variants[v]? = some variant →
        unifyFields [] tys variant.fields = some ps →
        k < a.nsorts → Params.lookup ps k = none →
        Node.fold (.adt a v fs) = none) ∧
    (∀ (a : AdtDef) (v : ℕ) (fs : NodeList) (ty : Ty) (n' : Node),
        Node.fold (.adt a v fs) = some (ty, n') →
        ∃ idxs, ty = .indexed (.adt a.defId .nil) idxs ∧ idxs.length = a.nsorts) := by
  constructor
  · intro a v fs tys r variant ps k hfold hvar hunify hk hnone
    have hc : collectSorts ps 0 a.nsorts = none :=
      collectSorts_none a.nsorts 0 k ps (Nat.zero_le k) (by omega) hnone
    simp [Node.fold, hfold, fold, hvar, hunify, hc]
  · intro a v fs ty n' h
    simp only [Node.fold] at h
    obtain ⟨p, hfold, h⟩ := Option.bind_eq_some.mp h
    obtain ⟨idxs, hidxs, h⟩ := Option.map_eq_some'.mp h
    simp only [fold] at hidxs
    obtain ⟨variant, hvar, hidxs⟩ := Option.bind_eq_some.mp hidxs
    obtain ⟨ps, hunify, hcol⟩ := Option.bind_eq_some.mp hidxs
    injection h with h₁ h₂
    exact ⟨idxs, h₁.symm, collectSorts_length a.nsorts 0 ps idxs hcol⟩

/-- Witness for C2: a one-sort ADT whose single variant's field types
never mention index 0; folding its record is fatal. -/
theorem fold_fatal_on_unassigned_witness :
    Node.fold (.adt ⟨0, 1, [⟨[Ty.uninit]⟩]⟩ 0 (.cons (.ty Ty.uninit) .nil)) = none :=
  fold_fatal_on_unassigned.1 ⟨0, 1, [⟨[Ty.uninit]⟩]⟩ 0 (.cons (.ty Ty.uninit) .nil)
    [Ty.uninit] (.cons (.ty Ty.uninit) .nil) ⟨[Ty.uninit]⟩ [] 0
    rfl rfl rfl (by decide) rfl

lemma inferIdxs_subst (σ : List Expr) : ∀ (es : List Expr) (ps : Params) (j : ℕ),
    Params.lookup (inferIdxs ps (es.map (substPE σ)) es) j
      = if es.any (fun e => e == Expr.pvar j) then some (σ.getD j (.pvar j))
        else Params.lookup ps j := by
  intro es
  induction es with
  | nil => intro ps j; simp [inferIdxs]
  | cons e es ih =>
      intro ps j
      simp only [List.map_cons, inferIdxs, List.any_cons]
      rw [ih]
      by_cases hes : es.any (fun e => e == Expr.pvar j) = true
      · simp [hes]
      · simp only [hes, Bool.or_false, if_false, Bool.false_eq_true]
        cases e with
        | pvar k =>
            by_cases hk : k = j
            · subst hk
              simp [inferFromExprs, Params.insert, Params.lookup, substPE]
            · simp [inferFromExprs, Params.insert, Params.lookup, hk, substPE]
        | fvar n => simp [inferFromExprs]
        | const c => simp [inferFromExprs]
        | binop op a b => simp [inferFromExprs]
        | unop op a => simp [inferFromExprs]

mutual
theorem tyInfer_subst (s : Ty) : ∀ (σ : List Expr) (ps : Params), sigOkT s = true →
    ∃ ps', tyInferFolding ps (substPT σ s) s = some ps' ∧
      ∀ j, Params.lookup ps' j
        = if occursT j s then some (σ.getD j (.pvar j)) else Params.lookup ps j := by
  match s with
  | .indexed b idxs =>
      intro σ ps hok
      simp only [sigOkT] at hok
      obtain ⟨ps₁, hps₁, hchar₁⟩ := btyInfer_subst b σ ps hok
      refine ⟨inferIdxs ps₁ (idxs.map (substPE σ)) idxs, ?_, ?_⟩
      · simp [substPT, tyInferFolding, hps₁]
      · intro j
        rw [inferIdxs_subst σ idxs ps₁ j, hchar₁ j]
        simp only [occursT]
        by_cases h₁ : idxs.any (fun e => e == Expr.pvar j) = true <;>
          by_cases h₂ : occursB j b = true <;> simp [h₁, h₂]
  | .exist b p =>
      intro σ ps _
      exact ⟨ps, by simp [substPT, tyInferFolding], fun j => by simp [occursT]⟩
  | .ptr p => intro σ ps hok; simp [sigOkT] at hok
  | .ref .shr t =>
      intro σ ps hok
      simp only [sigOkT] at hok
      obtain ⟨ps', hps', hchar⟩ := tyInfer_subst t σ ps hok
      refine ⟨ps', ?_, ?_⟩
      · simpa [substPT, tyInferFolding] using hps'
      · intro j; simpa [occursT] using hchar j
  | .ref .mut t =>
      intro σ ps _
      exact ⟨ps, by simp [substPT, tyInferFolding], fun j => by simp [occursT]⟩
  | .uninit =>
      intro σ ps _
      exact ⟨ps, by simp [substPT, tyInferFolding], fun j => by simp [occursT]⟩
  | .param n =>
      intro σ ps _
      exact ⟨ps, by simp [substPT, tyInferFolding], fun j => by simp [occursT]⟩

theorem btyInfer_subst (b : BaseTy) : ∀ (σ : List Expr) (ps : Params), sigOkB b = true →
    ∃ ps', btyInferFolding ps (substPB σ b) b = some ps' ∧
      ∀ j, Params.lookup ps' j
        = if occursB j b then some (σ.getD j (.pvar j)) else Params.lookup ps j := by
  match b with
  | .int =>
      intro σ ps _
      exact ⟨ps, by simp [substPB, btyInferFolding], fun j => by simp [occursB]⟩
  | .bool =>
      intro σ ps _
      exact ⟨ps, by simp [substPB, btyInferFolding], fun j => by simp [occursB]⟩
  | .adt d ts =>
      intro σ ps hok
      simp only [sigOkB] at hok
      obtain ⟨ps', hps', hchar⟩ := tyListInfer_subst ts σ ps hok
      exact ⟨ps', by simpa [substPB, btyInferFolding] using hps',
        fun j => by simpa [occursB] using hchar j⟩

theorem tyListInfer_subst (ts : TyList) : ∀ (σ : List Expr) (ps : Params), sigOkTL ts = true →
    ∃ ps', tyListInferFolding ps (substPTL σ ts) ts = some ps' ∧
      ∀ j, Params.lookup ps' j
        = if occursTL j ts then some (σ.getD j (.pvar j)) else Params.lookup ps j := by
  match ts with
  | .nil =>
      intro σ ps _
      exact ⟨ps, by simp [substPTL, tyListInferFolding], fun j => by simp [occursTL]⟩
  | .cons t ts' =>
      intro σ ps hok
      simp only [sigOkTL, Bool.and_eq_true] at hok
      obtain ⟨ps₁, hps₁, hchar₁⟩ := tyInfer_subst t σ ps hok.1
      obtain ⟨ps₂, hps₂, hchar₂⟩ := tyListInfer_subst ts' σ ps₁ hok.2
      refine ⟨ps₂, ?_, ?_⟩
      · simp [substPTL, tyListInferFolding, hps₁, hps₂]
      · intro j
        rw [hchar₂ j, hchar₁ j]
        simp only [occursTL]
        by_cases h₁ : occursT j t = true <;>
          by_cases h₂ : occursTL j ts' = true <;> simp [h₁, h₂]
end

lemma unify_subst_fields (σ : List Expr) : ∀ (fields : List Ty) (ps : Params),
    (∀ s ∈ fields, sigOkT s = true) →
    ∃ ps', unifyFields ps (fields.map (substPT σ)) fields = some ps' ∧
      ∀ j, Params.lookup ps' j
        = if fields.any (fun s => occursT j s) then some (σ.getD j (.pvar j))
          else Params.lookup ps j := by
  intro fields
  induction fields with
  | nil => intro ps _; exact ⟨ps, rfl, fun j => by simp⟩
  | cons s fields ih =>
      intro ps hok
      obtain ⟨ps₁, hps₁, hchar₁⟩ := tyInfer_subst s σ ps (hok s (by simp))
      obtain ⟨ps₂, hps₂, hchar₂⟩ := ih ps₁ (fun x hx => hok x (by simp [hx]))
      refine ⟨ps₂, ?_, ?_⟩
      · simp [unifyFields, hps₁, hps₂]
      · intro j
        rw [hchar₂ j, hchar₁ j]
        simp only [List.any_cons]
        by_cases h₁ : occursT j s = true <;>
          by_cases h₂ : fields.any (fun s => occursT j s) = true <;> simp [h₁, h₂]

lemma collectSorts_of_lookup (idxs : List Expr) (ps : Params) :
    ∀ (m i : ℕ), i + m = idxs.length →
    (∀ k, i ≤ k → k < idxs.length →
        Params.lookup ps k = some (idxs.getD k (.pvar k))) →
    collectSorts ps i m = some (idxs.drop i) := by
  intro m
  induction m with
  | zero =>
      intro i hlen _
      have hd : idxs.drop i = [] := List.drop_eq_nil_of_le (by omega)
      simp [collectSorts, hd]
  | succ m ih =>
      intro i hlen hlk
      have hi : i < idxs.length := by omega
      have h₁ : Params.lookup ps i = some (idxs.getD i (.pvar i)) := hlk i (le_refl i) hi
      have h₂ : collectSorts ps (i + 1) m = some (idxs.drop (i + 1)) :=
        ih (i + 1) (by omega) (fun k hk1 hk2 => hlk k (by omega) hk2)
      rw [collectSorts, h₁, h₂]
      simp only [Option.some_bind, Option.map_some']
      rw [List.getD_eq_getElem idxs _ hi, ← List.drop_eq_getElem_cons hi]

lemma foldAll_ofTys : ∀ (l : List Ty),
    NodeList.foldAll (NodeList.ofTys l) = some (l, NodeList.ofTys l) := by
  intro l
  induction l with
  | nil => rfl
  | cons t ts ih => simp [NodeList.ofTys, NodeList.foldAll, Node.fold, ih]

/-- C1.  For a Leaf whose type decomposes under variant `v` (with a
well-formed signature: one index expression per declared sort, no
unification-reachable raw-pointer position, and every declared index
occurring at a unification-reachable position), unfolding at `v` and then
immediately folding — with no field mutated in between — yields a Leaf
whose type is the same ADT indexed by exactly the original index
expressions. -/
theorem fold_unfold_roundtrip :
    ∀ (g : Genv) (defId : ℕ) (substs : TyList) (idxs : List Expr) (v : ℕ)
      (adtDef : AdtDef) (variant : Variant),
      Genv.find? g defId = some adtDef →
      adtDef.variants[v]? = some variant →
      idxs.length = adtDef.nsorts →
      (∀ s ∈ variant.fields, sigOkT s = true) →
      (∀ k, k < adtDef.nsorts → variant.fields.any (fun s => occursT k s) = true) →
      Node.unfoldN g (.ty (.indexed (.adt defId substs) idxs)) v
        = some (.adt adtDef v (NodeList.ofTys (variant.fields.map (substPT idxs)))) ∧
      Node.fold (.adt adtDef v (NodeList.ofTys (variant.fields.map (substPT idxs))))
        = some (.indexed (.adt adtDef.defId .nil) idxs,
                .ty (.indexed (.adt adtDef.defId .nil) idxs)) := by
  intro g defId substs idxs v adtDef variant hfind hvar hlen hok hocc
  constructor
  · simp [Node.unfoldN, Ty.unfold, hfind, hvar]
  · obtain ⟨ps, hps, hchar⟩ := unify_subst_fields idxs variant.fields [] hok
    have hlk : ∀ k, 0 ≤ k → k < idxs.length →
        Params.lookup ps k = some (idxs.getD k (.pvar k)) := by
      intro k _ hk
      rw [hchar k]
      simp [hocc k (by omega)]
    have hcol : collectSorts ps 0 adtDef.nsorts = some idxs := by
      simpa using collectSorts_of_lookup idxs ps adtDef.nsorts 0 (by omega) hlk
    simp [Node.fold, foldAll_ofTys, fold, hvar, hps, hcol]

/-- Witness for C1: a one-sort ADT whose single variant has one field of
type `int` indexed by the declared index; the Leaf `Adt[fvar 7]` unfolds
and folds back to `Adt[fvar 7]`. -/
theorem fold_unfold_roundtrip_witness :
    Node.unfoldN [⟨5, 1, [⟨[Ty.indexed .int [.pvar 0]]⟩]⟩]
        (.ty (.indexed (.adt 5 .nil) [.fvar 7])) 0
      = some (.adt ⟨5, 1, [⟨[Ty.indexed .int [.pvar 0]]⟩]⟩ 0
          (NodeList.ofTys ([Ty.indexed .int [.pvar 0]].map (substPT [.fvar 7])))) ∧
    Node.fold (.adt ⟨5, 1, [⟨[Ty.indexed .int [.pvar 0]]⟩]⟩ 0
          (NodeList.ofTys ([Ty.indexed .int [.pvar 0]].map (substPT [.fvar 7]))))
      = some (.indexed (.adt 5 .nil) [.fvar 7], .ty (.indexed (.adt 5 .nil) [.fvar 7])) :=
  fold_unfold_roundtrip [⟨5, 1, [⟨[Ty.indexed .int [.pvar 0]]⟩]⟩] 5 .nil [.fvar 7] 0
    ⟨5, 1, [⟨[Ty.indexed .int [.pvar 0]]⟩]⟩ ⟨[Ty.indexed .int [.pvar 0]]⟩
    rfl rfl rfl (by decide) (by decide)

lemma lookupLoc_self : ∀ (t : PathsTree), (t.map Prod.fst).Nodup →
    ∀ (l : Loc) (n : Node), (l, n) ∈ t → PathsTree.lookupLoc t l = some n := by
  intro t
  induction t with
  | nil => intro _ l n h; simp at h
  | cons e rest ih =>
      intro hnd l n h
      obtain ⟨l₀, n₀⟩ := e
      simp only [List.map_cons, List.nodup_cons] at hnd
      rcases List.mem_cons.mp h with heq | hmem
      · injection heq with h₁ h₂
        subst h₁; subst h₂
        simp [PathsTree.lookupLoc]
      · by_cases hl : l₀ = l
        · exfalso
          apply hnd.1
          subst hl
          exact List.mem_map_of_mem Prod.fst hmem
        · simp only [PathsTree.lookupLoc, hl, if_false]
          exact ih hnd.2 l n hmem

lemma updateLoc_self : ∀ (t : PathsTree) (l : Loc) (n : Node),
    PathsTree.lookupLoc t l = some n → PathsTree.updateLoc t l n = t := by
  intro t l n
  induction t with
  | nil => intro h; simp [PathsTree.lookupLoc] at h
  | cons e rest ih =>
      obtain ⟨l₀, n₀⟩ := e
      intro h
      by_cases hl : l₀ = l
      · subst hl
        simp [PathsTree.lookupLoc] at h
        simp [PathsTree.updateLoc, h]
      · simp only [PathsTree.lookupLoc, hl, if_false] at h
        simp [PathsTree.updateLoc, hl, ih h]

mutual
theorem nodeUnfoldWith_self (g : Genv) (n : Node) : ∀ (fuel : ℕ), Node.depth n ≤ fuel →
    Node.unfoldWith g fuel n n = some (n, n) := by
  match n with
  | .ty t =>
      intro fuel h
      match fuel with
      | 0 => simp [Node.depth] at h
      | f + 1 => simp [Node.unfoldWith]
  | .adt a v fs =>
      intro fuel h
      match fuel with
      | 0 => simp [Node.depth] at h
      | f + 1 =>
          have hfs : NodeList.depthL fs ≤ f := by
            simp only [Node.depth] at h; omega
          simp [Node.unfoldWith, nodeListUnfoldWith_self g fs f hfs]

theorem nodeListUnfoldWith_self (g : Genv) (ns : NodeList) : ∀ (fuel : ℕ),
    NodeList.depthL ns ≤ fuel →
    NodeList.unfoldWithL g fuel ns ns = some (ns, ns) := by
  match ns with
  | .nil => intro fuel _; simp [NodeList.unfoldWithL]
  | .cons a as =>
      intro fuel h
      have hmax : max (Node.depth a) (NodeList.depthL as) ≤ fuel := by
        simpa [NodeList.depthL] using h
      have ha : Node.depth a ≤ fuel := le_trans (le_max_left _ _) hmax
      have has : NodeList.depthL as ≤ fuel := le_trans (le_max_right _ _) hmax
      simp [NodeList.unfoldWithL, nodeUnfoldWith_self g a fuel ha,
        nodeListUnfoldWith_self g as fuel has]
end

lemma unfoldWithGo_self (g : Genv) (fuel : ℕ) (t : PathsTree) :
    ∀ rest : List (Loc × Node),
      (∀ e ∈ rest, PathsTree.lookupLoc t e.1 = some e.2 ∧ Node.depth e.2 ≤ fuel) →
      PathsTree.unfoldWithGo g fuel rest t = some (rest, t) := by
  intro rest
  induction rest with
  | nil => intro _; rfl
  | cons e rest ih =>
      intro h
      obtain ⟨loc, n⟩ := e
      obtain ⟨hl, hd⟩ := h _ (List.mem_cons_self _ _)
      simp [PathsTree.unfoldWithGo, hl, nodeUnfoldWith_self g n fuel hd,
        updateLoc_self t loc n hl, ih (fun e he => h e (List.mem_cons_of_mem _ he))]

/-- C8.  Reconciling a heap with a clone of itself via `unfold_with`
leaves it structurally unchanged: both resulting trees equal the
original. -/
theorem unfold_with_self_id : ∀ (g : Genv) (fuel : ℕ) (t : PathsTree),
    (t.map Prod.fst).Nodup →
    (∀ e ∈ t, Node.depth e.2 ≤ fuel) →
    PathsTree.unfoldWith g fuel t t = some (t, t) := by
  intro g fuel t hnd hd
  exact unfoldWithGo_self g fuel t t
    (fun e he => ⟨lookupLoc_self t hnd e.1 e.2 he, hd e he⟩)

mutual
theorem getN_of_paths (n : Node) : ∀ (proj : List ℕ) (ty : Ty),
    (proj, ty) ∈ Node.paths n → Node.getN n proj = some (some ty) := by
  match n with
  | .ty t =>
      intro proj ty h
      simp only [Node.paths, List.mem_singleton, Prod.mk.injEq] at h
      obtain ⟨h₁, h₂⟩ := h
      subst h₁; subst h₂
      rfl
  | .adt a v fs =>
      intro proj ty h
      simp only [Node.paths] at h
      obtain ⟨j, rest, rfl, _, n', hget, hgn⟩ := getN_of_pathsL fs 0 proj ty h
      simp only [Nat.sub_zero] at hget
      simp [Node.getN, hget, hgn]

theorem getN_of_pathsL (ns : NodeList) : ∀ (i : ℕ) (proj : List ℕ) (ty : Ty),
    (proj, ty) ∈ NodeList.pathsL i ns →
    ∃ j rest, proj = j :: rest ∧ i ≤ j ∧
      ∃ n', NodeList.get? ns (j - i) = some n' ∧ Node.getN n' rest = some (some ty) := by
  match ns with
  | .nil => intro i proj ty h; simp [NodeList.pathsL] at h
  | .cons n ns' =>
      intro i proj ty h
      simp only [NodeList.pathsL, List.mem_append, List.mem_map] at h
      rcases h with ⟨q, hq, heq⟩ | hmem
      · obtain ⟨qp, qt⟩ := q
        injection heq with h₁ h₂
        refine ⟨i, qp, h₁.symm, le_refl i, n, ?_, ?_⟩
        · simp [Nat.sub_self, NodeList.get?]
        · exact h₂ ▸ getN_of_paths n qp qt hq
      · obtain ⟨j, rest, rfl, hge, n', hget, hgn⟩ := getN_of_pathsL ns' (i + 1) proj ty hmem
        refine ⟨j, rest, rfl, by omega, n', ?_, hgn⟩
        have hj : j - i = (j - (i + 1)) + 1 := by omega
        rw [hj]
        simpa [NodeList.get?] using hget
end

mutual
theorem paths_nodup (n : Node) : ((Node.paths n).map Prod.fst).Nodup := by
  match n with
  | .ty t => simp [Node.paths]
  | .adt a v fs => exact pathsL_nodup fs 0

theorem pathsL_nodup (ns : NodeList) : ∀ (i : ℕ),
    ((NodeList.pathsL i ns).map Prod.fst).Nodup := by
  match ns with
  | .nil => intro i; simp [NodeList.pathsL]
  | .cons n ns' =>
      intro i
      simp only [NodeList.pathsL, List.map_append, List.map_map]
      refine List.Nodup.append ?_ ?_ ?_
      · have : (Prod.fst ∘ fun q : List ℕ × Ty => (i :: q.1, q.2))
            = (fun l : List ℕ => i :: l) ∘ Prod.fst := rfl
        rw [this, ← List.map_map]
        exact (paths_nodup n).map (fun a b hab => by injection hab)
      · exact pathsL_nodup ns' (i + 1)
      · intro x hx₁ hx₂
        simp only [List.mem_map, Function.comp_apply] at hx₁
        obtain ⟨q, _, rfl⟩ := hx₁
        obtain ⟨pr, hpr, heq⟩ := List.mem_map.mp hx₂
        obtain ⟨j, rest, hshape, hge, _, _, _⟩ :=
          getN_of_pathsL ns' (i + 1) pr.1 pr.2 (by simpa using hpr)
        rw [heq] at hshape
        injection hshape with h₁ h₂
        omega
end

lemma iterPaths_mem : ∀ (t : PathsTree) (p : Path) (ty : Ty),
    (p, ty) ∈ PathsTree.iterPaths t →
    ∃ n, (p.loc, n) ∈ t ∧ (p.projection, ty) ∈ Node.paths n := by
  intro t p ty h
  simp only [PathsTree.iterPaths, List.mem_flatMap, List.mem_map] at h
  obtain ⟨e, he, q, hq, heq⟩ := h
  injection heq with h₁ h₂
  subst h₁
  subst h₂
  exact ⟨e.2, he, hq⟩

lemma iterPaths_loc_mem : ∀ (t : PathsTree) (p : Path),
    p ∈ (PathsTree.iterPaths t).map Prod.fst → p.loc ∈ t.map Prod.fst := by
  intro t p h
  obtain ⟨pr, hpr, rfl⟩ := List.mem_map.mp h
  obtain ⟨n, hn, _⟩ := iterPaths_mem t pr.1 pr.2 (by simpa using hpr)
  exact List.mem_map_of_mem Prod.fst hn

lemma iterPaths_nodup : ∀ (t : PathsTree), (t.map Prod.fst).Nodup →
    ((PathsTree.iterPaths t).map Prod.fst).Nodup := by
  intro t
  induction t with
  | nil => intro _; simp [PathsTree.iterPaths]
  | cons e rest ih =>
      intro hnd
      simp only [List.map_cons, List.nodup_cons] at hnd
      have hsplit : PathsTree.iterPaths (e :: rest)
          = ((Node.paths e.2).map fun q => ((⟨e.1, q.1⟩ : Path), q.2))
            ++ PathsTree.iterPaths rest := by
        simp [PathsTree.iterPaths]
      rw [hsplit, List.map_append]
      refine List.Nodup.append ?_ (ih hnd.2) ?_
      · rw [List.map_map]
        have he : (Prod.fst ∘ fun q : List ℕ × Ty => ((⟨e.1, q.1⟩ : Path), q.2))
            = (fun l => (⟨e.1, l⟩ : Path)) ∘ Prod.fst := rfl
        rw [he, ← List.map_map]
        exact (paths_nodup e.2).map (fun a b hab => by injection hab)
      · intro x hx₁ hx₂
        simp only [List.map_map, List.mem_map, Function.comp_apply] at hx₁
        obtain ⟨q, _, rfl⟩ := hx₁
        have := iterPaths_loc_mem rest _ hx₂
        exact hnd.1 (by simpa using this)

/-- C7.  Iterating all paths of a heap never yields two equal `Path`
values, and every `(path, type)` pair yielded resolves by direct lookup
to exactly that type. -/
theorem iter_paths_spec : ∀ (t : PathsTree), (t.map Prod.fst).Nodup →
    ((PathsTree.iterPaths t).map Prod.fst).Nodup ∧
    ∀ (p : Path) (ty : Ty), (p, ty) ∈ PathsTree.iterPaths t →
      PathsTree.get t p = some (some ty) := by
  intro t hnd
  refine ⟨iterPaths_nodup t hnd, ?_⟩
  intro p ty h
  obtain ⟨n, hn, hpaths⟩ := iterPaths_mem t p ty h
  have hl := lookupLoc_self t hnd p.loc n hn
  simp [PathsTree.get, hl, getN_of_paths n p.projection ty hpaths]

/-- Witness for C7: a heap with a Leaf root and an unfolded two-field
record root. -/
theorem iter_paths_spec_witness :
    (((PathsTree.iterPaths
        [(Loc.local 0, Node.ty Ty.uninit),
         (Loc.free 1, Node.adt ⟨0, 0, []⟩ 0
            (.cons (.ty (Ty.param 3)) (.cons (.ty Ty.uninit) .nil)))]).map Prod.fst).Nodup) ∧
    PathsTree.get
        [(Loc.local 0, Node.ty Ty.uninit),
         (Loc.free 1, Node.adt ⟨0, 0, []⟩ 0
            (.cons (.ty (Ty.param 3)) (.cons (.ty Ty.uninit) .nil)))]
        ⟨Loc.free 1, [0]⟩ = some (some (Ty.param 3)) := by
  have h := iter_paths_spec
    [(Loc.local 0, Node.ty Ty.uninit),
     (Loc.free 1, Node.adt ⟨0, 0, []⟩ 0
        (.cons (.ty (Ty.param 3)) (.cons (.ty Ty.uninit) .nil)))] (by decide)
  exact ⟨h.1, h.2 ⟨Loc.free 1, [0]⟩ (Ty.param 3) (by decide)⟩

/-- Witness for C8: a two-location heap, one Leaf and one unfolded
record, reconciled with itself. -/
theorem unfold_with_self_id_witness :
    PathsTree.unfoldWith [] 2
      [(Loc.local 0, Node.ty Ty.uninit),
       (Loc.free 1, Node.adt ⟨0, 0, []⟩ 0 (.cons (.ty Ty.uninit) .nil))]
      [(Loc.local 0, Node.ty Ty.uninit),
       (Loc.free 1, Node.adt ⟨0, 0, []⟩ 0 (.cons (.ty Ty.uninit) .nil))]
    = some
      ([(Loc.local 0, Node.ty Ty.uninit),
        (Loc.free 1, Node.adt ⟨0, 0, []⟩ 0 (.cons (.ty Ty.uninit) .nil))],
       [(Loc.local 0, Node.ty Ty.uninit),
        (Loc.free 1, Node.adt ⟨0, 0, []⟩ 0 (.cons (.ty Ty.uninit) .nil))]) :=
  unfold_with_self_id [] 2 _ (by decide) (by decide)

end FluxModel

namespace LRSubst

/-!
Embedding of `liquid-rust-typeck/src/subst.rs`, which operates over the
older `crate::ty` vocabulary (`Var`, `ExprKind`, `Pred`, `TyKind` with
`Refine`/`Exists`/`Uninit`/`MutRef`/`Param`).  Interning is dropped:
`intern` builds the value directly.
-/

/-- `ExprKind`: refinement variables, constants, and composite
operations. -/
inductive SExpr where
  | var (x : ℕ)
  | const (c : ℤ)
  | binaryOp (op : ℕ) (e₁ e₂ : SExpr)
  | unaryOp (op : ℕ) (e : SExpr)
deriving DecidableEq

/-- `Pred`: a predicate-variable application or a plain expression. -/
inductive SPred where
  | kvar (kvid : ℕ) (args : List SExpr)
  | expr (e : SExpr)
deriving DecidableEq

/-- `TyKind` of the older vocabulary. -/
inductive STy where
  | refine (bty : ℕ) (e : SExpr)
  | exist (bty : ℕ) (evar : ℕ) (p : SPred)
  | uninit
  | mutRef (r : ℕ)
  | param (n : ℕ)
deriving DecidableEq

/-- `Subst`: the finite variable-to-expression mapping, embedded as an
association list with the hash map's unique-key discipline. -/
abbrev Subst := List (ℕ × SExpr)

def Subst.lookup (σ : Subst) (x : ℕ) : Option SExpr :=
  match σ with
  | [] => none
  | (y, e) :: rest => if y = x then some e else Subst.lookup rest x

/-- `Subst::subst_var`: the image of a mapped variable, the variable
itself otherwise. -/
def substVar (σ : Subst) (x : ℕ) : SExpr :=
  match σ.lookup x with
  | some e => e
  | none => .var x

/-- `Subst::subst_expr`. -/
def substExpr (σ : Subst) : SExpr → SExpr
  | .var x => substVar σ x
  | .const c => .const c
  | .binaryOp op e₁ e₂ => .binaryOp op (substExpr σ e₁) (substExpr σ e₂)
  | .unaryOp op e => .unaryOp op (substExpr σ e)

/-- `Subst::subst_pred`. -/
def substPred (σ : Subst) : SPred → SPred
  | .kvar kvid args => .kvar kvid (args.map (substExpr σ))
  | .expr e => .expr (substExpr σ e)

/-- `Subst::subst_ty`: rewrite the refinement of a `Refine` type and the
body predicate of an `Exists` (the bound variable is untouched — the
caller maintains the no-shadowing invariant); the remaining kinds are
returned unchanged. -/
def substTy (σ : Subst) : STy → STy
  | .refine bty e => .refine bty (substExpr σ e)
  | .exist bty evar p => .exist bty evar (substPred σ p)
  | .uninit => .uninit
  | .mutRef r => .mutRef r
  | .param n => .param n

end LRSubst

namespace Invariants

/-!
Model of `crates/flux-refineck/src/invariants.rs`.  The proof-context
facility (`RefineTree`, `RefineCtxt`), the variant instantiation and the
fixpoint backend are external collaborators not under `src/`; they are
modelled from the spec at the interface granularity the claims need.
-/

/-- Modelled from the spec: one proof context per variant (§4.4) — fresh
refinement variables for the variant's binder sorts, the field types'
well-formedness invariants assumed, and the instantiated invariant
predicate asserted as the goal. -/
structure Obligation where
  freshVars : ℕ
  assumptions : List ℕ
  goal : ℕ

/-- Modelled from the spec: a declared variant as the obligation builder
sees it — its binder sort count, its field well-formedness invariants and
its index tuple (predicates and indices are opaque tokens here; the
builder never inspects them). -/
structure VariantSig where
  sorts : ℕ
  fieldInvariants : List ℕ
  idx : ℕ

/-- Modelled from the spec: an ADT declaration as seen by
`check_invariants` — its variants and its declared invariants. -/
structure AdtDecl where
  variants : List VariantSig
  invariants : List ℕ

/-- Modelled from the spec: instantiating a declared invariant at a
variant's index tuple is an opaque application. -/
def applyInv (inv : ℕ) (idx : ℕ) : ℕ := inv + idx

/-- The per-variant loop of `check_invariant`: one obligation context per
variant of the ADT. -/
def buildObligations (adt : AdtDecl) (inv : ℕ) : List Obligation :=
  adt.variants.map fun v =>
    { freshVars := v.sorts, assumptions := v.fieldInvariants, goal := applyInv inv v.idx }

/-- `check_invariant`: build all variant contexts, hand them to the
external solving backend (`invoke_fixpoint`, abstracted as a function
from obligations to unsatisfied-obligation records), and succeed exactly
when no errors come back. -/
def checkInvariant (solver : List Obligation → List ℕ) (adt : AdtDecl) (inv : ℕ) :
    Except ℕ Unit :=
  let errors := solver (buildObligations adt inv)
  if errors.isEmpty then .ok () else .error inv

/-- Modelled from the spec: `try_for_each_exhaust` of `flux_common`
applies the action to every element even after a failure (fail-soft,
accumulate-and-report) and returns the first recorded error, if any. -/
def tryForEachExhaust (rs : List (Except ℕ Unit)) : Except ℕ Unit :=
  match rs with
  | [] => .ok ()
  | .ok () :: rest => tryForEachExhaust rest
  | .error e :: rest =>
    match tryForEachExhaust rest with
    | .ok () => .error e
    | .error _ => .error e

/-- `check_invariants`: check every declared invariant of the ADT
exhaustively. -/
def checkInvariants (solver : List Obligation → List ℕ) (adt : AdtDecl) :
    Except ℕ Unit :=
  tryForEachExhaust (adt.invariants.map (checkInvariant solver adt))

end Invariants

namespace LRSubst

lemma substExpr_of_empty (σ : Subst) (h : ∀ x, Subst.lookup σ x = none) :
    ∀ e, substExpr σ e = e := by
  intro e
  induction e with
  | var x => simp [substExpr, substVar, h]
  | const c => rfl
  | binaryOp op e₁ e₂ ih₁ ih₂ => simp [substExpr, ih₁, ih₂]
  | unaryOp op e ih => simp [substExpr, ih]

lemma substPred_of_empty (σ : Subst) (h : ∀ x, Subst.lookup σ x = none) :
    ∀ p, substPred σ p = p := by
  intro p
  cases p with
  | kvar kvid args =>
      simp only [substPred, SPred.kvar.injEq, true_and]
      induction args with
      | nil => rfl
      | cons a rest ih => simp [substExpr_of_empty σ h, ih]
  | expr e => simp [substPred, substExpr_of_empty σ h]

lemma substTy_of_empty (σ : Subst) (h : ∀ x, Subst.lookup σ x = none) :
    ∀ t, substTy σ t = t := by
  intro t
  cases t with
  | refine bty e => simp [substTy, substExpr_of_empty σ h]
  | exist bty evar p => simp [substTy, substPred_of_empty σ h]
  | uninit => rfl
  | mutRef r => rfl
  | param n => rfl

/-- C9.  Substitution rewrites expressions, predicates and types
homomorphically: a mapped variable is replaced by its image, an unmapped
variable is left as itself, composite expressions rewrite their children
recursively, an existential rewrites only its body predicate (the bound
variable is untouched), a predicate variable rewrites each argument while
preserving the family identity, the operation is total (every equation
below holds for every input), and substituting with an empty mapping
returns the input unchanged. -/
theorem subst_homomorphic :
    (∀ (σ : Subst) (x : ℕ) (e : SExpr), Subst.lookup σ x = some e → substVar σ x = e) ∧
    (∀ (σ : Subst) (x : ℕ), Subst.lookup σ x = none → substVar σ x = SExpr.var x) ∧
    (∀ (σ : Subst) (op : ℕ) (e₁ e₂ : SExpr),
        substExpr σ (.binaryOp op e₁ e₂) = .binaryOp op (substExpr σ e₁) (substExpr σ e₂)) ∧
    (∀ (σ : Subst) (op : ℕ) (e : SExpr),
        substExpr σ (.unaryOp op e) = .unaryOp op (substExpr σ e)) ∧
    (∀ (σ : Subst) (bty evar : ℕ) (p : SPred),
        substTy σ (.exist bty evar p) = .exist bty evar (substPred σ p)) ∧
    (∀ (σ : Subst) (kvid : ℕ) (args : List SExpr),
        substPred σ (.kvar kvid args) = .kvar kvid (args.map (substExpr σ))) ∧
    (∀ (σ : Subst), (∀ x, Subst.lookup σ x = none) →
        (∀ e, substExpr σ e = e) ∧ (∀ p, substPred σ p = p) ∧ (∀ t, substTy σ t = t)) := by
  refine ⟨?_, ?_, ?_, ?_, ?_, ?_, ?_⟩
  · intro σ x e h; simp [substVar, h]
  · intro σ x h; simp [substVar, h]
  · intro σ op e₁ e₂; rfl
  · intro σ op e; rfl
  · intro σ bty evar p; rfl
  · intro σ kvid args; rfl
  · intro σ h
    exact ⟨substExpr_of_empty σ h, substPred_of_empty σ h, substTy_of_empty σ h⟩

/-- Witness for C9: the mapping `{0 ↦ 5}` replaces variable 0 and leaves
variable 1 alone. -/
theorem subst_homomorphic_witness :
    substVar ((0, SExpr.const 5) :: []) 0 = SExpr.const 5 ∧
    substVar ((0, SExpr.const 5) :: []) 1 = SExpr.var 1 ∧
    (∀ e, substExpr [] e = e) := by
  refine ⟨subst_homomorphic.1 _ 0 _ rfl, subst_homomorphic.2.1 _ 1 rfl, ?_⟩
  exact (subst_homomorphic.2.2.2.2.2.2 [] (fun _ => rfl)).1

end LRSubst

namespace Invariants

lemma tryForEachExhaust_ok_iff (rs : List (Except ℕ Unit)) :
    tryForEachExhaust rs = .ok () ↔ ∀ r ∈ rs, r = .ok () := by
  induction rs with
  | nil => simp [tryForEachExhaust]
  | cons r rest ih =>
      cases r with
      | ok u =>
          cases u
          simpa [tryForEachExhaust] using ih
      | error e =>
          simp only [tryForEachExhaust]
          cases h : tryForEachExhaust rest <;> simp

/-- C5.  `check_invariant` builds one proof context per variant of the
ADT — each carrying the variant's fresh refinement variables, its field
well-formedness assumptions and the instantiated invariant goal — and
succeeds exactly when the external solver reports zero unsatisfied
obligations over all of them; `check_invariants` checks every declared
invariant exhaustively and succeeds only if all of them succeed. -/
theorem check_invariants_spec :
    (∀ (adt : AdtDecl) (inv : ℕ),
        (buildObligations adt inv).length = adt.variants.length) ∧
    (∀ (adt : AdtDecl) (inv : ℕ) (i : ℕ) (v : VariantSig),
        adt.variants[i]? = some v →
        (buildObligations adt inv)[i]?
          = some ⟨v.sorts, v.fieldInvariants, applyInv inv v.idx⟩) ∧
    (∀ (solver : List Obligation → List ℕ) (adt : AdtDecl) (inv : ℕ),
        checkInvariant solver adt inv = .ok ()
          ↔ solver (buildObligations adt inv) = []) ∧
    (∀ (solver : List Obligation → List ℕ) (adt : AdtDecl),
        checkInvariants solver adt = .ok ()
          ↔ ∀ inv ∈ adt.invariants, checkInvariant solver adt inv = .ok ()) := by
  refine ⟨?_, ?_, ?_, ?_⟩
  · intro adt inv; simp [buildObligations]
  · intro adt inv i v h
    rw [buildObligations, List.getElem?_map, h]
    rfl
  · intro solver adt inv
    simp only [checkInvariant]
    cases h : solver (buildObligations adt inv) <;> simp [h]
  · intro solver adt
    rw [checkInvariants, tryForEachExhaust_ok_iff]
    constructor
    · intro h inv hmem
      exact h _ (List.mem_map_of_mem _ hmem)
    · intro h r hr
      rcases List.mem_map.mp hr with ⟨inv, hmem, rfl⟩
      exact h inv hmem

/-- Witness for C5: a two-variant ADT with one invariant, under a solver
reporting no errors, yields two obligation contexts and succeeds. -/
theorem check_invariants_spec_witness :
    (buildObligations ⟨[⟨1, [], 0⟩, ⟨2, [3], 1⟩], [4]⟩ 4).length = 2 ∧
    (buildObligations ⟨[⟨1, [], 0⟩, ⟨2, [3], 1⟩], [4]⟩ 4).get? 1
      = some ⟨2, [3], applyInv 4 1⟩ ∧
    (checkInvariants (fun _ => []) ⟨[⟨1, [], 0⟩, ⟨2, [3], 1⟩], [4]⟩ = .ok ()) := by
  refine ⟨check_invariants_spec.1 _ 4,
    check_invariants_spec.2.1 ⟨[⟨1, [], 0⟩, ⟨2, [3], 1⟩], [4]⟩ 4 1 ⟨2, [3], 1⟩ rfl, ?_⟩
  exact (check_invariants_spec.2.2.2 (fun _ => []) _).mpr
    (fun inv _ => (check_invariants_spec.2.2.1 (fun _ => []) _ inv).mpr rfl)

end Invariants
